import Mathlib

/-!
Verification of the windowed minibatch sampler and the recurrent predictor
error from `theanets/recurrent.py`.

Arrays are modelled as dimension-tagged total entry functions; numeric
entries are rationals (the sampler only copies values, and the predictor
error is a symbolic real-arithmetic expression).  The numpy random source
`rng` is modelled as an infinite stream of raw naturals together with a
cursor position; `rng.randint(n)` consumes one raw draw, reduces it modulo
`n`, and fails (raises `ValueError`) when the bound `n` is not positive,
exactly as `numpy.random.randint` does.  A slice assignment
`xs[:, i, :] = arr[j:j+steps]` follows numpy broadcast rules: the slice
`arr[j:j+steps]` has `min(steps, len(arr) - j)` rows, and the assignment
succeeds when that count equals `steps` (the full window) or equals `1`
(numpy replicates the single row across the slot); any other count raises
a broadcast error, modelled as `none`.  For the `samples` array a drawn
offset always satisfies `j < len(samples) - steps`, so its slice always
has the full `steps` rows and the model tests exactly that; for `labels`,
whose length is never compared against `len(samples)`, both the full-window
and the one-row broadcast case are modelled.
-/

namespace Theanets

/-- A 2-d numpy array `(time-steps, data-dimensions)`: `rows` time steps,
`cols` variables per frame. -/
structure Arr2 where
  rows : ℕ
  cols : ℕ
  entry : ℕ → ℕ → ℚ

/-- A 3-d numpy array `(time, batch, variables)`. -/
structure Arr3 where
  d0 : ℕ
  d1 : ℕ
  d2 : ℕ
  entry : ℕ → ℕ → ℕ → ℚ

/-- `np.zeros((a, b, c))`. -/
def zeros3 (a b c : ℕ) : Arr3 :=
  ⟨a, b, c, fun _ _ _ => 0⟩

/-- The state of the module-level random source `numpy.random`: an infinite
stream of raw natural draws and the position of the next unconsumed draw. -/
structure RngState where
  stream : ℕ → ℕ
  pos : ℕ

/-- `rng.randint(n)`: uniform integer in `[0, n)`.  Raises `ValueError`
(`none`) when the bound is not positive; otherwise consumes one raw draw
and reduces it modulo the bound. -/
def randint (n : ℤ) (g : RngState) : Option (ℕ × RngState) :=
  if 0 < n then some (g.stream g.pos % n.toNat, ⟨g.stream, g.pos + 1⟩)
  else none

/-- The slice assignment `xs[:, i, :] = src[j:j+steps]`: overwrite every
cell of batch slot `i` (all `t < steps`, all `d < src.cols`) with the
corresponding cell of the contiguous window of `src` starting at row `j`. -/
def writeSlot (src : Arr2) (steps : ℕ) (xs : Arr3) (i j : ℕ) : Arr3 :=
  { xs with entry := fun t i2 d =>
      if i2 = i ∧ t < steps ∧ d < src.cols then src.entry (j + t) d
      else xs.entry t i2 d }

/-- The slice assignment `ys[:, i, :] = src[j:j+steps]` in the case where
the slice has exactly one row (`len(src) - j = 1`): numpy broadcasts that
single row `src[j]` across every time step of slot `i`. -/
def writeSlotRow (src : Arr2) (steps : ℕ) (ys : Arr3) (i j : ℕ) : Arr3 :=
  { ys with entry := fun t i2 d =>
      if i2 = i ∧ t < steps ∧ d < src.cols then src.entry j d
      else ys.entry t i2 d }

/-- The source row feeding time step `t` of a label slot windowed at
offset `j`: row `j + t` when the window fits entirely, row `j` when numpy
broadcasts the single remaining row. -/
def labelRow (labels : Arr2) (steps j t : ℕ) : ℕ :=
  if steps ≤ labels.rows - j then j + t else j

/-- The loop body of `unlabeled_sample`, iterating `for i in range(batch_size)`
with `k` slots still to fill starting at slot `i`: draw
`j = rng.randint(len(samples) - steps)`, then `xs[:, i, :] = samples[j:j+steps]`
(a broadcast error if the slice is shorter than `steps` rows). -/
def fillSlots (samples : Arr2) (steps : ℕ) : ℕ → ℕ → Arr3 → RngState → Option (Arr3 × RngState)
  | _, 0, xs, g => some (xs, g)
  | i, k + 1, xs, g =>
    (randint ((samples.rows : ℤ) - (steps : ℤ)) g).bind fun jg =>
      if jg.1 + steps ≤ samples.rows then
        fillSlots samples steps (i + 1) k (writeSlot samples steps xs i jg.1) jg.2
      else none

/-- The loop body of `labeled_sample`: the same single draw `j` per slot is
used to window both `samples` (into `xs`) and `labels` (into `ys`).  The
label slice `labels[j:j+steps]` has `min(steps, len(labels) - j)` rows;
the assignment into the `(steps, L)` slot succeeds with the full window
when that count is `steps` (`steps <= len(labels) - j`), succeeds by
broadcasting the single row when the count is `1` (`len(labels) - j = 1`
with `steps` larger), and raises a broadcast error otherwise. -/
def fillSlotsL (samples labels : Arr2) (steps : ℕ) :
    ℕ → ℕ → Arr3 → Arr3 → RngState → Option ((Arr3 × Arr3) × RngState)
  | _, 0, xs, ys, g => some ((xs, ys), g)
  | i, k + 1, xs, ys, g =>
    (randint ((samples.rows : ℤ) - (steps : ℤ)) g).bind fun jg =>
      if jg.1 + steps ≤ samples.rows then
        if steps ≤ labels.rows - jg.1 then
          fillSlotsL samples labels steps (i + 1) k
            (writeSlot samples steps xs i jg.1) (writeSlot labels steps ys i jg.1) jg.2
        else if labels.rows - jg.1 = 1 then
          fillSlotsL samples labels steps (i + 1) k
            (writeSlot samples steps xs i jg.1) (writeSlotRow labels steps ys i jg.1) jg.2
        else none
      else none

/-- `unlabeled_sample()`: allocate `xs = np.zeros((steps, batch_size, D))`,
fill every batch slot with a random contiguous window of `samples`, and
`return [xs]`. -/
def unlabeled_sample (samples : Arr2) (steps batch_size : ℕ) (g : RngState) :
    Option (List Arr3 × RngState) :=
  (fillSlots samples steps 0 batch_size (zeros3 steps batch_size samples.cols) g).map
    fun r => ([r.1], r.2)

/-- `labeled_sample()`: allocate `xs` and `ys`, fill both with windows drawn
at the same per-slot offsets, and `return [xs, ys]`. -/
def labeled_sample (samples labels : Arr2) (steps batch_size : ℕ) (g : RngState) :
    Option (List Arr3 × RngState) :=
  (fillSlotsL samples labels steps 0 batch_size
      (zeros3 steps batch_size samples.cols) (zeros3 steps batch_size labels.cols) g).map
    fun r => ([r.1.1, r.1.2], r.2)

/-- `batches(samples, labels=None, steps=100, batch_size=64)`: returns
`unlabeled_sample if labels is None else labeled_sample`. -/
def batches (samples : Arr2) (labels : Option Arr2) (steps : ℕ := 100)
    (batch_size : ℕ := 64) : RngState → Option (List Arr3 × RngState) :=
  match labels with
  | none => unlabeled_sample samples steps batch_size
  | some ls => labeled_sample samples ls steps batch_size

/-- The offset drawn for batch slot `i` of one sampler call started in rng
state `g`: the loop's `i`-th call of `rng.randint(len(samples) - steps)`
consumes raw draw `g.stream (g.pos + i)`. -/
def drawnOffset (samples : Arr2) (steps : ℕ) (g : RngState) (i : ℕ) : ℕ :=
  g.stream (g.pos + i) % (samples.rows - steps)

/-- Closed form of a filled batch array: slot `i` holds the window of `src`
starting at row `off i`; cells outside the array extent keep the `np.zeros`
value. -/
def buildArr (src : Arr2) (off : ℕ → ℕ) (steps bs : ℕ) : Arr3 :=
  ⟨steps, bs, src.cols, fun t i d =>
    if i < bs ∧ t < steps ∧ d < src.cols then src.entry (off i + t) d else 0⟩

/-- Closed form of a filled label batch array: slot `i` reads `labels`
through `labelRow`, so a fully fitting window is copied and a one-row
remainder is broadcast across the slot. -/
def buildArrL (labels : Arr2) (off : ℕ → ℕ) (steps bs : ℕ) : Arr3 :=
  ⟨steps, bs, labels.cols, fun t i d =>
    if i < bs ∧ t < steps ∧ d < labels.cols
    then labels.entry (labelRow labels steps (off i) t) d else 0⟩

/-! ### Helper lemmas: characterizing the fill loops -/

theorem arr3_eq {a b : Arr3} (h0 : a.d0 = b.d0) (h1 : a.d1 = b.d1)
    (h2 : a.d2 = b.d2) (he : ∀ t i d, a.entry t i d = b.entry t i d) : a = b := by
  cases a
  cases b
  simp only [Arr3.mk.injEq]
  exact ⟨h0, h1, h2, funext fun t => funext fun i => funext fun d => he t i d⟩

/-- The effect on `xs` of `k` loop iterations starting at slot `i` in rng
state `g`, windowing `src` with offsets reduced modulo `n`. -/
def wrote (src : Arr2) (steps n : ℕ) (g : RngState) (i k : ℕ) (xs : Arr3) : Arr3 :=
  { xs with entry := fun t i2 d =>
      if i ≤ i2 ∧ i2 < i + k ∧ t < steps ∧ d < src.cols
      then src.entry (g.stream (g.pos + (i2 - i)) % n + t) d
      else xs.entry t i2 d }

theorem wrote_zero (src : Arr2) (steps n : ℕ) (g : RngState) (i : ℕ) (xs : Arr3) :
    wrote src steps n g i 0 xs = xs := by
  refine arr3_eq rfl rfl rfl fun t i2 d => ?_
  show (if _ ∧ i2 < i + 0 ∧ _ ∧ _ then _ else xs.entry t i2 d) = xs.entry t i2 d
  rw [if_neg]
  rintro ⟨h1, h2, -⟩
  omega

theorem wrote_succ (src : Arr2) (steps n : ℕ) (σ : ℕ → ℕ) (p i k : ℕ) (xs : Arr3) :
    wrote src steps n ⟨σ, p + 1⟩ (i + 1) k (writeSlot src steps xs i (σ p % n)) =
      wrote src steps n ⟨σ, p⟩ i (k + 1) xs := by
  refine arr3_eq rfl rfl rfl fun t i2 d => ?_
  simp only [wrote, writeSlot]
  by_cases ht : t < steps
  · by_cases hd : d < src.cols
    · by_cases hi : i2 = i
      · rw [if_neg (by intro hc; omega), if_pos ⟨hi, ht, hd⟩,
          if_pos ⟨by omega, by omega, ht, hd⟩]
        have he : p + (i2 - i) = p := by omega
        rw [he]
      · by_cases hin : i + 1 ≤ i2 ∧ i2 < i + 1 + k
        · rw [if_pos ⟨hin.1, hin.2, ht, hd⟩, if_pos ⟨by omega, by omega, ht, hd⟩]
          have he : p + 1 + (i2 - (i + 1)) = p + (i2 - i) := by omega
          rw [he]
        · rw [if_neg (by intro hc; omega), if_neg (by intro hc; omega),
            if_neg (by intro hc; omega)]
    · rw [if_neg (by intro hc; omega), if_neg (by intro hc; omega),
        if_neg (by intro hc; omega)]
  · rw [if_neg (by intro hc; omega), if_neg (by intro hc; omega),
      if_neg (by intro hc; omega)]

/-- The effect on `ys` of `k` label-writing loop iterations starting at
slot `i` in rng state `g`: each slot holds its window of `labels`, read
through `labelRow` so that a one-row slice is broadcast across the slot. -/
def wroteL (labels : Arr2) (steps n : ℕ) (g : RngState) (i k : ℕ) (ys : Arr3) : Arr3 :=
  { ys with entry := fun t i2 d =>
      if i ≤ i2 ∧ i2 < i + k ∧ t < steps ∧ d < labels.cols
      then labels.entry (labelRow labels steps (g.stream (g.pos + (i2 - i)) % n) t) d
      else ys.entry t i2 d }

theorem wroteL_zero (labels : Arr2) (steps n : ℕ) (g : RngState) (i : ℕ) (ys : Arr3) :
    wroteL labels steps n g i 0 ys = ys := by
  refine arr3_eq rfl rfl rfl fun t i2 d => ?_
  show (if _ ∧ i2 < i + 0 ∧ _ ∧ _ then _ else ys.entry t i2 d) = ys.entry t i2 d
  rw [if_neg]
  rintro ⟨h1, h2, -⟩
  omega

theorem wroteL_succ_fit (labels : Arr2) (steps n : ℕ) (σ : ℕ → ℕ) (p i k : ℕ)
    (ys : Arr3) (hfit : steps ≤ labels.rows - σ p % n) :
    wroteL labels steps n ⟨σ, p + 1⟩ (i + 1) k (writeSlot labels steps ys i (σ p % n)) =
      wroteL labels steps n ⟨σ, p⟩ i (k + 1) ys := by
  refine arr3_eq rfl rfl rfl fun t i2 d => ?_
  simp only [wroteL, writeSlot]
  by_cases ht : t < steps
  · by_cases hd : d < labels.cols
    · by_cases hi : i2 = i
      · rw [if_neg (by intro hc; omega), if_pos ⟨hi, ht, hd⟩,
          if_pos ⟨by omega, by omega, ht, hd⟩]
        have he : p + (i2 - i) = p := by omega
        rw [he]
        simp only [labelRow]
        rw [if_pos hfit]
      · by_cases hin : i + 1 ≤ i2 ∧ i2 < i + 1 + k
        · rw [if_pos ⟨hin.1, hin.2, ht, hd⟩, if_pos ⟨by omega, by omega, ht, hd⟩]
          have he : p + 1 + (i2 - (i + 1)) = p + (i2 - i) := by omega
          rw [he]
        · rw [if_neg (by intro hc; omega), if_neg (by intro hc; omega),
            if_neg (by intro hc; omega)]
    · rw [if_neg (by intro hc; omega), if_neg (by intro hc; omega),
        if_neg (by intro hc; omega)]
  · rw [if_neg (by intro hc; omega), if_neg (by intro hc; omega),
      if_neg (by intro hc; omega)]

theorem wroteL_succ_row (labels : Arr2) (steps n : ℕ) (σ : ℕ → ℕ) (p i k : ℕ)
    (ys : Arr3) (hfit : ¬ steps ≤ labels.rows - σ p % n) :
    wroteL labels steps n ⟨σ, p + 1⟩ (i + 1) k (writeSlotRow labels steps ys i (σ p % n)) =
      wroteL labels steps n ⟨σ, p⟩ i (k + 1) ys := by
  refine arr3_eq rfl rfl rfl fun t i2 d => ?_
  simp only [wroteL, writeSlotRow]
  by_cases ht : t < steps
  · by_cases hd : d < labels.cols
    · by_cases hi : i2 = i
      · rw [if_neg (by intro hc; omega), if_pos ⟨hi, ht, hd⟩,
          if_pos ⟨by omega, by omega, ht, hd⟩]
        have he : p + (i2 - i) = p := by omega
        rw [he]
        simp only [labelRow]
        rw [if_neg hfit]
      · by_cases hin : i + 1 ≤ i2 ∧ i2 < i + 1 + k
        · rw [if_pos ⟨hin.1, hin.2, ht, hd⟩, if_pos ⟨by omega, by omega, ht, hd⟩]
          have he : p + 1 + (i2 - (i + 1)) = p + (i2 - i) := by omega
          rw [he]
        · rw [if_neg (by intro hc; omega), if_neg (by intro hc; omega),
            if_neg (by intro hc; omega)]
    · rw [if_neg (by intro hc; omega), if_neg (by intro hc; omega),
        if_neg (by intro hc; omega)]
  · rw [if_neg (by intro hc; omega), if_neg (by intro hc; omega),
      if_neg (by intro hc; omega)]

theorem randint_pos (samples : Arr2) (steps : ℕ) (hs : steps < samples.rows)
    (σ : ℕ → ℕ) (p : ℕ) :
    randint ((samples.rows : ℤ) - (steps : ℤ)) ⟨σ, p⟩ =
      some (σ p % (samples.rows - steps), ⟨σ, p + 1⟩) := by
  rw [randint, if_pos (by omega)]
  have h : ((samples.rows : ℤ) - (steps : ℤ)).toNat = samples.rows - steps := by omega
  rw [h]

theorem drawn_lt (samples : Arr2) (steps : ℕ) (hs : steps < samples.rows)
    (g : RngState) (i : ℕ) : drawnOffset samples steps g i < samples.rows - steps :=
  Nat.mod_lt _ (by omega)

theorem fillSlots_eq (samples : Arr2) (steps : ℕ) (hs : steps < samples.rows) :
    ∀ (k i : ℕ) (xs : Arr3) (σ : ℕ → ℕ) (p : ℕ),
      fillSlots samples steps i k xs ⟨σ, p⟩ =
        some (wrote samples steps (samples.rows - steps) ⟨σ, p⟩ i k xs, ⟨σ, p + k⟩) := by
  intro k
  induction k with
  | zero =>
    intro i xs σ p
    rw [fillSlots, wrote_zero]
    rfl
  | succ k ih =>
    intro i xs σ p
    rw [fillSlots, randint_pos samples steps hs]
    simp only [Option.some_bind]
    have hj : σ p % (samples.rows - steps) + steps ≤ samples.rows := by
      have := Nat.mod_lt (σ p) (y := samples.rows - steps) (by omega)
      omega
    rw [if_pos hj,
      ih (i + 1) (writeSlot samples steps xs i (σ p % (samples.rows - steps))) σ (p + 1)]
    rw [wrote_succ samples steps (samples.rows - steps) σ p i k xs]
    have hp : p + 1 + k = p + (k + 1) := by omega
    rw [hp]

theorem fillSlotsL_eq (samples labels : Arr2) (steps : ℕ) (hs : steps < samples.rows) :
    ∀ (k i : ℕ) (xs ys : Arr3) (σ : ℕ → ℕ) (p : ℕ),
      (∀ m, m < k → steps ≤ labels.rows - σ (p + m) % (samples.rows - steps) ∨
         labels.rows - σ (p + m) % (samples.rows - steps) = 1) →
      fillSlotsL samples labels steps i k xs ys ⟨σ, p⟩ =
        some ((wrote samples steps (samples.rows - steps) ⟨σ, p⟩ i k xs,
               wroteL labels steps (samples.rows - steps) ⟨σ, p⟩ i k ys),
          ⟨σ, p + k⟩) := by
  intro k
  induction k with
  | zero =>
    intro i xs ys σ p _
    rw [fillSlotsL, wrote_zero, wroteL_zero]
    rfl
  | succ k ih =>
    intro i xs ys σ p hl
    rw [fillSlotsL, randint_pos samples steps hs]
    simp only [Option.some_bind]
    have hj : σ p % (samples.rows - steps) + steps ≤ samples.rows := by
      have := Nat.mod_lt (σ p) (y := samples.rows - steps) (by omega)
      omega
    have h0 : steps ≤ labels.rows - σ p % (samples.rows - steps) ∨
        labels.rows - σ p % (samples.rows - steps) = 1 := by
      have := hl 0 (Nat.succ_pos k)
      simpa using this
    have hrest : ∀ m, m < k →
        steps ≤ labels.rows - σ (p + 1 + m) % (samples.rows - steps) ∨
        labels.rows - σ (p + 1 + m) % (samples.rows - steps) = 1 := by
      intro m hm
      have := hl (m + 1) (by omega)
      have ha : p + 1 + m = p + (m + 1) := by omega
      rw [ha]
      exact this
    have hp : p + 1 + k = p + (k + 1) := by omega
    rw [if_pos hj]
    by_cases hfit : steps ≤ labels.rows - σ p % (samples.rows - steps)
    · rw [if_pos hfit,
        ih (i + 1) (writeSlot samples steps xs i (σ p % (samples.rows - steps)))
          (writeSlot labels steps ys i (σ p % (samples.rows - steps))) σ (p + 1) hrest,
        wrote_succ samples steps (samples.rows - steps) σ p i k xs,
        wroteL_succ_fit labels steps (samples.rows - steps) σ p i k ys hfit, hp]
    · have hrow : labels.rows - σ p % (samples.rows - steps) = 1 := by
        rcases h0 with h | h
        · exact absurd h hfit
        · exact h
      rw [if_neg hfit, if_pos hrow,
        ih (i + 1) (writeSlot samples steps xs i (σ p % (samples.rows - steps)))
          (writeSlotRow labels steps ys i (σ p % (samples.rows - steps))) σ (p + 1) hrest,
        wrote_succ samples steps (samples.rows - steps) σ p i k xs,
        wroteL_succ_row labels steps (samples.rows - steps) σ p i k ys hfit, hp]

theorem wrote_from_zeros (src : Arr2) (steps n bs : ℕ) (g : RngState) (c : ℕ)
    (hc : c = src.cols) :
    wrote src steps n g 0 bs (zeros3 steps bs c) =
      buildArr src (fun i => g.stream (g.pos + i) % n) steps bs := by
  subst hc
  refine arr3_eq rfl rfl rfl fun t i2 d => ?_
  simp only [wrote, buildArr, zeros3]
  by_cases h : i2 < bs ∧ t < steps ∧ d < src.cols
  · rw [if_pos ⟨Nat.zero_le i2, by omega, h.2.1, h.2.2⟩, if_pos h]
    have he : i2 - 0 = i2 := by omega
    rw [he]
  · rw [if_neg (by intro hc2; omega), if_neg h]

theorem wroteL_from_zeros (labels : Arr2) (steps n bs : ℕ) (g : RngState) (c : ℕ)
    (hc : c = labels.cols) :
    wroteL labels steps n g 0 bs (zeros3 steps bs c) =
      buildArrL labels (fun i => g.stream (g.pos + i) % n) steps bs := by
  subst hc
  refine arr3_eq rfl rfl rfl fun t i2 d => ?_
  simp only [wroteL, buildArrL, zeros3]
  by_cases h : i2 < bs ∧ t < steps ∧ d < labels.cols
  · rw [if_pos ⟨Nat.zero_le i2, by omega, h.2.1, h.2.2⟩, if_pos h]
    have he : i2 - 0 = i2 := by omega
    rw [he]
  · rw [if_neg (by intro hc2; omega), if_neg h]

/-- Closed form of one `unlabeled_sample()` call: the result is the batch
array whose slot `i` windows `samples` at `drawnOffset i`, and the rng
cursor advances by `batch_size`. -/
theorem unlabeled_sample_eq (samples : Arr2) (steps bs : ℕ) (g : RngState)
    (hs : steps < samples.rows) :
    unlabeled_sample samples steps bs g =
      some ([buildArr samples (drawnOffset samples steps g) steps bs],
        ⟨g.stream, g.pos + bs⟩) := by
  obtain ⟨σ, p⟩ := g
  rw [unlabeled_sample,
    fillSlots_eq samples steps hs bs 0 (zeros3 steps bs samples.cols) σ p,
    wrote_from_zeros samples steps (samples.rows - steps) bs ⟨σ, p⟩ samples.cols rfl]
  rfl

/-- Closed form of one `labeled_sample()` call, provided every drawn label
window either fits inside `labels` or leaves exactly one row to broadcast:
both arrays are windowed at the same per-slot offset `drawnOffset i`, the
label side read through `labelRow`. -/
theorem labeled_sample_eq_general (samples labels : Arr2) (steps bs : ℕ) (g : RngState)
    (hs : steps < samples.rows)
    (hl : ∀ m, m < bs → steps ≤ labels.rows - drawnOffset samples steps g m ∨
       labels.rows - drawnOffset samples steps g m = 1) :
    labeled_sample samples labels steps bs g =
      some ([buildArr samples (drawnOffset samples steps g) steps bs,
             buildArrL labels (drawnOffset samples steps g) steps bs],
        ⟨g.stream, g.pos + bs⟩) := by
  obtain ⟨σ, p⟩ := g
  rw [labeled_sample,
    fillSlotsL_eq samples labels steps hs bs 0 (zeros3 steps bs samples.cols)
      (zeros3 steps bs labels.cols) σ p hl,
    wrote_from_zeros samples steps (samples.rows - steps) bs ⟨σ, p⟩ samples.cols rfl,
    wroteL_from_zeros labels steps (samples.rows - steps) bs ⟨σ, p⟩ labels.cols rfl]
  rfl

/-- Closed form of one `labeled_sample()` call, provided every drawn label
window fits inside `labels`: both arrays window their source at the same
per-slot offset `drawnOffset i`. -/
theorem labeled_sample_eq (samples labels : Arr2) (steps bs : ℕ) (g : RngState)
    (hs : steps < samples.rows)
    (hl : ∀ m, m < bs → drawnOffset samples steps g m + steps ≤ labels.rows) :
    labeled_sample samples labels steps bs g =
      some ([buildArr samples (drawnOffset samples steps g) steps bs,
             buildArr labels (drawnOffset samples steps g) steps bs],
        ⟨g.stream, g.pos + bs⟩) := by
  rw [labeled_sample_eq_general samples labels steps bs g hs
      (fun m hm => Or.inl (by have := hl m hm; omega))]
  have hBL : buildArrL labels (drawnOffset samples steps g) steps bs =
      buildArr labels (drawnOffset samples steps g) steps bs := by
    refine arr3_eq rfl rfl rfl fun t i d => ?_
    simp only [buildArrL, buildArr]
    by_cases h : i < bs ∧ t < steps ∧ d < labels.cols
    · rw [if_pos h, if_pos h]
      simp only [labelRow]
      rw [if_pos (by have := hl i h.1; omega)]
    · rw [if_neg h, if_neg h]
  rw [hBL]

theorem batches_none_eq (samples : Arr2) (steps bs : ℕ) :
    batches samples none steps bs = unlabeled_sample samples steps bs := rfl

theorem batches_some_eq (samples ls : Arr2) (steps bs : ℕ) :
    batches samples (some ls) steps bs = labeled_sample samples ls steps bs := rfl

/-- When `steps >= len(samples)`, the first loop iteration calls
`rng.randint` with a non-positive bound, which raises. -/
theorem fillSlots_none (samples : Arr2) (steps : ℕ) (hs : samples.rows ≤ steps)
    (i k : ℕ) (xs : Arr3) (g : RngState) :
    fillSlots samples steps i (k + 1) xs g = none := by
  rw [fillSlots, randint, if_neg (by omega)]
  rfl

/-- If the very first drawn label slice `labels[j:j+steps]` has a row
count different from both `steps` and `1`, the slice assignment
`ys[:, 0, :] = labels[j:j+steps]` raises a broadcast error. -/
theorem fillSlotsL_none_first (samples labels : Arr2) (steps : ℕ)
    (hs : steps < samples.rows) (i k : ℕ) (xs ys : Arr3) (σ : ℕ → ℕ) (p : ℕ)
    (hfit : ¬ steps ≤ labels.rows - σ p % (samples.rows - steps))
    (hrow : labels.rows - σ p % (samples.rows - steps) ≠ 1) :
    fillSlotsL samples labels steps i (k + 1) xs ys ⟨σ, p⟩ = none := by
  rw [fillSlotsL, randint_pos samples steps hs]
  simp only [Option.some_bind]
  have hj : σ p % (samples.rows - steps) + steps ≤ samples.rows := by
    have := Nat.mod_lt (σ p) (y := samples.rows - steps) (by omega)
    omega
  rw [if_pos hj, if_neg hfit, if_neg hrow]

/-- In any block of `n * c` consecutive raw draw values, each residue
`v < n` is hit exactly `c` times: reducing a uniform raw draw modulo `n`
yields a uniform value in `[0, n)`. -/
theorem card_filter_mod (n c v : ℕ) (hv : v < n) :
    ((Finset.range (n * c)).filter (fun r => r % n = v)).card = c := by
  have hn : 0 < n := by omega
  have h := Nat.count_modEq_card (n * c) hn v
  rw [Nat.count_eq_card_filter_range] at h
  have hpred : (Finset.range (n * c)).filter (fun r => r % n = v) =
      (Finset.range (n * c)).filter (· ≡ v [MOD n]) := by
    apply Finset.filter_congr
    intro r _
    unfold Nat.ModEq
    rw [Nat.mod_eq_of_lt hv]
  rw [hpred, h, Nat.mul_mod_right, Nat.mul_div_cancel_left c hn,
    if_neg (by omega), Nat.add_zero]

/-! ### `Predictor.error` and `Predictor.generate_prediction` -/

/-- `Predictor.generate_prediction(y)`: the identity transform. -/
def generate_prediction (y : Arr3) : Arr3 := y

/-- The slice `x[1:]` of a 3-d array along the time axis. -/
def tailSlice (x : Arr3) : Arr3 :=
  ⟨x.d0 - 1, x.d1, x.d2, fun t i d => x.entry (t + 1) i d⟩

/-- The slice `y[:-1]` of a 3-d array along the time axis. -/
def dropLastSlice (y : Arr3) : Arr3 :=
  ⟨y.d0 - 1, y.d1, y.d2, y.entry⟩

/-- Elementwise difference of equal-shaped 3-d arrays. -/
def sub3 (a b : Arr3) : Arr3 :=
  ⟨a.d0, a.d1, a.d2, fun t i d => a.entry t i d - b.entry t i d⟩

/-- Elementwise product of equal-shaped 3-d arrays. -/
def mul3 (a b : Arr3) : Arr3 :=
  ⟨a.d0, a.d1, a.d2, fun t i d => a.entry t i d * b.entry t i d⟩

/-- `a.sum()`: the sum of all entries of a 3-d array. -/
def sum3 (a : Arr3) : ℚ :=
  ∑ t ∈ Finset.range a.d0, ∑ i ∈ Finset.range a.d1, ∑ d ∈ Finset.range a.d2,
    a.entry t i d

/-- `a.mean()`: the sum of all entries divided by their number. -/
def mean3 (a : Arr3) : ℚ :=
  sum3 a / ((a.d0 : ℚ) * (a.d1 : ℚ) * (a.d2 : ℚ))

/-- `Predictor.error(output)`: with `err = x[1:] - generate_prediction(output)[:-1]`,
returns `(weights[1:] * err * err).sum() / weights[1:].sum()` when weighted,
else `(err * err).mean()`. -/
def Predictor_error (weighted : Bool) (weights x output : Arr3) : ℚ :=
  let err := sub3 (tailSlice x) (dropLastSlice (generate_prediction output))
  if weighted then
    sum3 (mul3 (mul3 (tailSlice weights) err) err) / sum3 (tailSlice weights)
  else mean3 (mul3 err err)

/-- The error formula as the claim words it: the mean over all entries of
the squared difference between the input shifted forward one time step and
the output truncated by one time step. -/
def specPredictorError (x y : Arr3) : ℚ :=
  (∑ t ∈ Finset.range (x.d0 - 1), ∑ i ∈ Finset.range x.d1,
      ∑ d ∈ Finset.range x.d2, (x.entry (t + 1) i d - y.entry t i d) ^ 2) /
    (((x.d0 - 1 : ℕ) : ℚ) * (x.d1 : ℚ) * (x.d2 : ℚ))

/-! ### Concrete data for witnesses and counterexamples -/

/-- A concrete dataset: 10 frames of dimension 3, `samples[t][d] = 3t + d`. -/
def sampleData : Arr2 := ⟨10, 3, fun t d => ((3 * t + d : ℕ) : ℚ)⟩

/-- A label series of the same length as `sampleData`. -/
def labelData : Arr2 := ⟨10, 2, fun t d => ((100 + 2 * t + d : ℕ) : ℚ)⟩

/-- A label series longer than `sampleData` (length 12 vs 10). -/
def labelLong : Arr2 := ⟨12, 2, fun t d => ((200 + 2 * t + d : ℕ) : ℚ)⟩

/-- A label series shorter than `sampleData` (length 3 vs 10). -/
def labelShort : Arr2 := ⟨3, 2, fun t d => ((300 + 2 * t + d : ℕ) : ℚ)⟩

/-- A concrete rng state whose raw draw stream is the identity. -/
def gId : RngState := ⟨fun n => n, 0⟩

/-! ### The claims -/

/-- C1: for every dataset with `steps < N`, each call of the unlabeled
generator returned by `batches` copies, for every batch slot `i < batch_size`,
a contiguous `steps`-row window `samples[j : j+steps]` into slot `i` along
the time axis, so every slot equals some contiguous slice of `samples`. -/
theorem batches_slot_window_copy (samples : Arr2) (steps bs : ℕ) (g : RngState)
    (hs : steps < samples.rows) :
    ∃ xs g2, batches samples none steps bs g = some ([xs], g2) ∧
      ∀ i, i < bs → ∃ j, j + steps ≤ samples.rows ∧
        ∀ t, t < steps → ∀ d, d < samples.cols →
          xs.entry t i d = samples.entry (j + t) d := by
  rw [batches_none_eq]
  refine ⟨_, _, unlabeled_sample_eq samples steps bs g hs, ?_⟩
  intro i hi
  refine ⟨drawnOffset samples steps g i, ?_, ?_⟩
  · have := drawn_lt samples steps hs g i
    omega
  · intro t ht d hd
    show (if i < bs ∧ t < steps ∧ d < samples.cols then _ else _) = _
    rw [if_pos ⟨hi, ht, hd⟩]

theorem batches_slot_window_copy_witness :
    5 < sampleData.rows ∧
    ∃ xs g2, batches sampleData none 5 2 gId = some ([xs], g2) ∧
      ∀ i, i < 2 → ∃ j, j + 5 ≤ sampleData.rows ∧
        ∀ t, t < 5 → ∀ d, d < sampleData.cols →
          xs.entry t i d = sampleData.entry (j + t) d :=
  ⟨by decide, batches_slot_window_copy sampleData 5 2 gId (by decide)⟩

/-- C2: for valid inputs (`steps < N`, aligned labels), every generator call
produces a data array of shape exactly `(steps, batch_size, D)`, and with
labels also a label array of shape exactly `(steps, batch_size, L)`. -/
theorem batches_output_shape (samples labels : Arr2) (steps bs : ℕ) (g : RngState)
    (hs : steps < samples.rows) (hl : labels.rows = samples.rows) :
    (∃ xs g2, batches samples none steps bs g = some ([xs], g2) ∧
       xs.d0 = steps ∧ xs.d1 = bs ∧ xs.d2 = samples.cols) ∧
    (∃ xs ys g2, batches samples (some labels) steps bs g = some ([xs, ys], g2) ∧
       xs.d0 = steps ∧ xs.d1 = bs ∧ xs.d2 = samples.cols ∧
       ys.d0 = steps ∧ ys.d1 = bs ∧ ys.d2 = labels.cols) := by
  have hfit : ∀ m, m < bs → drawnOffset samples steps g m + steps ≤ labels.rows := by
    intro m _
    have := drawn_lt samples steps hs g m
    omega
  constructor
  · rw [batches_none_eq]
    exact ⟨_, _, unlabeled_sample_eq samples steps bs g hs, rfl, rfl, rfl⟩
  · rw [batches_some_eq]
    exact ⟨_, _, _, labeled_sample_eq samples labels steps bs g hs hfit,
      rfl, rfl, rfl, rfl, rfl, rfl⟩

theorem batches_output_shape_witness :
    5 < sampleData.rows ∧ labelData.rows = sampleData.rows ∧
    ((∃ xs g2, batches sampleData none 5 2 gId = some ([xs], g2) ∧
        xs.d0 = 5 ∧ xs.d1 = 2 ∧ xs.d2 = sampleData.cols) ∧
     (∃ xs ys g2, batches sampleData (some labelData) 5 2 gId = some ([xs, ys], g2) ∧
        xs.d0 = 5 ∧ xs.d1 = 2 ∧ xs.d2 = sampleData.cols ∧
        ys.d0 = 5 ∧ ys.d1 = 2 ∧ ys.d2 = labelData.cols)) :=
  ⟨by decide, by decide,
    batches_output_shape sampleData labelData 5 2 gId (by decide) (by decide)⟩

/-- C3: with `steps < N`, the windows copied by a generator call start at
the drawn offsets; every drawn offset `j` satisfies `0 <= j < N - steps`
(exclusive upper bound); the offset is uniform: over any block of
`(N - steps) * c` consecutive raw draw values, each offset value below
`N - steps` arises exactly `c` times; and the offsets are independent
across slots: slot `i`'s offset depends only on the `i`-th fresh raw draw
`stream (pos + i)`. -/
theorem batches_offset_range_uniform (samples : Arr2) (steps bs : ℕ) (g : RngState)
    (hs : steps < samples.rows) :
    (∃ xs g2, batches samples none steps bs g = some ([xs], g2) ∧
       ∀ i, i < bs → ∀ t, t < steps → ∀ d, d < samples.cols →
         xs.entry t i d = samples.entry (drawnOffset samples steps g i + t) d) ∧
    (∀ i, drawnOffset samples steps g i < samples.rows - steps) ∧
    (∀ i v c, v < samples.rows - steps →
       ((Finset.range ((samples.rows - steps) * c)).filter
         (fun r => drawnOffset samples steps ⟨fun _ => r, 0⟩ i = v)).card = c) ∧
    (∀ g2 : RngState, ∀ i, g.stream (g.pos + i) = g2.stream (g2.pos + i) →
       drawnOffset samples steps g i = drawnOffset samples steps g2 i) := by
  refine ⟨?_, ?_, ?_, ?_⟩
  · rw [batches_none_eq]
    refine ⟨_, _, unlabeled_sample_eq samples steps bs g hs, ?_⟩
    intro i hi t ht d hd
    show (if i < bs ∧ t < steps ∧ d < samples.cols then _ else _) = _
    rw [if_pos ⟨hi, ht, hd⟩]
  · intro i
    exact drawn_lt samples steps hs g i
  · intro i v c hv
    exact card_filter_mod (samples.rows - steps) c v hv
  · intro g2 i h
    unfold drawnOffset
    rw [h]

theorem batches_offset_range_uniform_witness :
    5 < sampleData.rows ∧
    ((∃ xs g2, batches sampleData none 5 2 gId = some ([xs], g2) ∧
        ∀ i, i < 2 → ∀ t, t < 5 → ∀ d, d < sampleData.cols →
          xs.entry t i d = sampleData.entry (drawnOffset sampleData 5 gId i + t) d) ∧
     (∀ i, drawnOffset sampleData 5 gId i < sampleData.rows - 5) ∧
     (∀ i v c, v < sampleData.rows - 5 →
        ((Finset.range ((sampleData.rows - 5) * c)).filter
          (fun r => drawnOffset sampleData 5 ⟨fun _ => r, 0⟩ i = v)).card = c) ∧
     (∀ g2 : RngState, ∀ i, gId.stream (gId.pos + i) = g2.stream (g2.pos + i) →
        drawnOffset sampleData 5 gId i = drawnOffset sampleData 5 g2 i)) :=
  ⟨by decide, batches_offset_range_uniform sampleData 5 2 gId (by decide)⟩

/-- C4: with labels supplied (and aligned), the label window copied into
slot `i` uses the identical start offset as the data window of slot `i`,
and the call returns a two-element result `[data, labels]`; without labels
the call returns a one-element result. -/
theorem batches_label_alignment (samples labels : Arr2) (steps bs : ℕ) (g : RngState)
    (hs : steps < samples.rows) (hl : labels.rows = samples.rows) :
    (∃ xs ys g2, batches samples (some labels) steps bs g = some ([xs, ys], g2) ∧
       ∀ i, i < bs → ∀ t, t < steps →
         (∀ d, d < samples.cols →
           xs.entry t i d = samples.entry (drawnOffset samples steps g i + t) d) ∧
         (∀ d, d < labels.cols →
           ys.entry t i d = labels.entry (drawnOffset samples steps g i + t) d)) ∧
    (∀ l g3, batches samples (some labels) steps bs g = some (l, g3) → l.length = 2) ∧
    (∀ l g3, batches samples none steps bs g = some (l, g3) → l.length = 1) := by
  have hfit : ∀ m, m < bs → drawnOffset samples steps g m + steps ≤ labels.rows := by
    intro m _
    have := drawn_lt samples steps hs g m
    omega
  have hlab := labeled_sample_eq samples labels steps bs g hs hfit
  have hunlab := unlabeled_sample_eq samples steps bs g hs
  refine ⟨?_, ?_, ?_⟩
  · rw [batches_some_eq]
    refine ⟨_, _, _, hlab, ?_⟩
    intro i hi t ht
    constructor
    · intro d hd
      show (if i < bs ∧ t < steps ∧ d < samples.cols then _ else _) = _
      rw [if_pos ⟨hi, ht, hd⟩]
    · intro d hd
      show (if i < bs ∧ t < steps ∧ d < labels.cols then _ else _) = _
      rw [if_pos ⟨hi, ht, hd⟩]
  · intro l g3 h
    rw [batches_some_eq, hlab] at h
    cases h
    rfl
  · intro l g3 h
    rw [batches_none_eq, hunlab] at h
    cases h
    rfl

theorem batches_label_alignment_witness :
    5 < sampleData.rows ∧ labelData.rows = sampleData.rows ∧
    ((∃ xs ys g2, batches sampleData (some labelData) 5 2 gId = some ([xs, ys], g2) ∧
        ∀ i, i < 2 → ∀ t, t < 5 →
          (∀ d, d < sampleData.cols →
            xs.entry t i d = sampleData.entry (drawnOffset sampleData 5 gId i + t) d) ∧
          (∀ d, d < labelData.cols →
            ys.entry t i d = labelData.entry (drawnOffset sampleData 5 gId i + t) d)) ∧
     (∀ l g3, batches sampleData (some labelData) 5 2 gId = some (l, g3) → l.length = 2) ∧
     (∀ l g3, batches sampleData none 5 2 gId = some (l, g3) → l.length = 1)) :=
  ⟨by decide, by decide,
    batches_label_alignment sampleData labelData 5 2 gId (by decide) (by decide)⟩

/-- C5 counterexample: the claim says non-positive `steps` raises an
"InvalidWindow" error at construction or first-call time, never silently
tolerated.  But with `steps = 0` (non-positive) and a 10-frame dataset the
first call succeeds: the draw bound `len(samples) - 0 = 10` is positive and
the empty windows broadcast fine, so no error of any kind is raised. -/
theorem batches_zero_steps_tolerated :
    (batches sampleData none 0 2 gId).isSome = true := by
  rw [batches_none_eq, unlabeled_sample_eq sampleData 0 2 gId (by decide)]
  rfl

/-- C5 (amended): `steps >= N` with `batch_size >= 1` does fail at
first-call time (the random draw bound is non-positive, so `randint`
raises); `batch_size = 0` is silently tolerated, returning an empty batch
without ever drawing; and the boundary `steps = N - 1` succeeds with `j = 0`
the only offset ever drawn.  No validation of non-positive `steps` or
`batch_size` is performed. -/
theorem batches_window_validation (samples : Arr2) (steps bs : ℕ) (g : RngState) :
    (samples.rows ≤ steps → 1 ≤ bs → batches samples none steps bs g = none) ∧
    (batches samples none steps 0 g = some ([zeros3 steps 0 samples.cols], g)) ∧
    (steps + 1 = samples.rows →
       (∀ i, drawnOffset samples steps g i = 0) ∧
       ∃ xs g2, batches samples none steps bs g = some ([xs], g2)) := by
  refine ⟨?_, ?_, ?_⟩
  · intro hs hb
    obtain ⟨k, rfl⟩ : ∃ k, bs = k + 1 := ⟨bs - 1, by omega⟩
    rw [batches_none_eq, unlabeled_sample, fillSlots_none samples steps hs]
    rfl
  · rw [batches_none_eq, unlabeled_sample, fillSlots]
    rfl
  · intro hrow
    constructor
    · intro i
      unfold drawnOffset
      have h1 : samples.rows - steps = 1 := by omega
      rw [h1, Nat.mod_one]
    · rw [batches_none_eq]
      exact ⟨_, _, unlabeled_sample_eq samples steps bs g (by omega)⟩

theorem batches_window_validation_witness :
    batches sampleData none 12 2 gId = none ∧
    (∀ i, drawnOffset sampleData 9 gId i = 0) ∧
    (∃ xs g2, batches sampleData none 9 1 gId = some ([xs], g2)) :=
  ⟨(batches_window_validation sampleData 12 2 gId).1 (by decide) (by decide),
   ((batches_window_validation sampleData 9 1 gId).2.2 (by decide)).1,
   ((batches_window_validation sampleData 9 1 gId).2.2 (by decide)).2⟩

/-- C6 counterexample: the claim says a labels sequence whose length
differs from `samples` raises a "ShapeMismatch" error.  But with 10 data
frames and 12 label frames (lengths differ) the labeled call succeeds:
no length check exists, and every drawn label window happens to fit. -/
theorem batches_length_mismatch_tolerated :
    (batches sampleData (some labelLong) 5 2 gId).isSome = true := by
  rw [batches_some_eq, labeled_sample_eq sampleData labelLong 5 2 gId (by decide) (by decide)]
  rfl

/-- C6 (amended): `batches` never compares the lengths of `labels` and
`samples`.  A mismatched labels sequence is silently accepted whenever
every drawn label slice `labels[j:j+steps]` either has the full `steps`
rows or exactly one row (which numpy broadcasts across the whole slot);
the call fails only when some drawn slice has any other row count, with a
broadcast error at that call, never a length check. -/
theorem batches_label_length_unchecked (samples labels : Arr2) (steps bs : ℕ)
    (σ : ℕ → ℕ) (p : ℕ) :
    (steps < samples.rows →
       (∀ m, m < bs → steps ≤ labels.rows - drawnOffset samples steps ⟨σ, p⟩ m ∨
          labels.rows - drawnOffset samples steps ⟨σ, p⟩ m = 1) →
       (batches samples (some labels) steps bs ⟨σ, p⟩).isSome = true) ∧
    (steps < samples.rows → 1 ≤ bs →
       ¬ steps ≤ labels.rows - σ p % (samples.rows - steps) →
       labels.rows - σ p % (samples.rows - steps) ≠ 1 →
       batches samples (some labels) steps bs ⟨σ, p⟩ = none) := by
  constructor
  · intro hs hok
    rw [batches_some_eq, labeled_sample_eq_general samples labels steps bs ⟨σ, p⟩ hs hok]
    rfl
  · intro hs hb hfit hrow
    obtain ⟨k, rfl⟩ : ∃ k, bs = k + 1 := ⟨bs - 1, by omega⟩
    rw [batches_some_eq, labeled_sample,
      fillSlotsL_none_first samples labels steps hs 0 k _ _ σ p hfit hrow]
    rfl

theorem batches_label_length_unchecked_witness :
    (batches sampleData (some labelLong) 5 2 ⟨fun n => n, 0⟩).isSome = true ∧
    (batches sampleData (some labelShort) 5 1 ⟨fun _ => 2, 0⟩).isSome = true ∧
    batches sampleData (some labelShort) 5 1 ⟨fun n => n, 0⟩ = none :=
  ⟨(batches_label_length_unchecked sampleData labelLong 5 2 (fun n => n) 0).1
      (by decide) (by decide),
   (batches_label_length_unchecked sampleData labelShort 5 1 (fun _ => 2) 0).1
      (by decide) (by decide),
   (batches_label_length_unchecked sampleData labelShort 5 1 (fun n => n) 0).2
      (by decide) (by decide) (by decide) (by decide)⟩

/-- C7: a call of either generator returned by `batches` has no side
effect on the captured `samples` and `labels` datasets (the model threads
both read-only and returns fresh arrays): the only state carried between
calls is the random source, whose stream is unchanged and whose cursor
advances by exactly `batch_size`; every returned array is freshly
materialized, each cell either a copy of a source cell for this call's own
offsets or the fresh allocation's zero. -/
theorem batches_pure_frame (samples labels : Arr2) (steps bs : ℕ) (g : RngState)
    (hs : steps < samples.rows) (hl : labels.rows = samples.rows) :
    (∃ xs g2, batches samples none steps bs g = some ([xs], g2) ∧
       g2.stream = g.stream ∧ g2.pos = g.pos + bs ∧
       (∀ t i d, t < steps → i < bs → d < samples.cols →
         xs.entry t i d = samples.entry (drawnOffset samples steps g i + t) d) ∧
       (∀ t i d, ¬(t < steps ∧ i < bs ∧ d < samples.cols) → xs.entry t i d = 0)) ∧
    (∃ xs ys g2, batches samples (some labels) steps bs g = some ([xs, ys], g2) ∧
       g2.stream = g.stream ∧ g2.pos = g.pos + bs ∧
       (∀ t i d, t < steps → i < bs → d < samples.cols →
         xs.entry t i d = samples.entry (drawnOffset samples steps g i + t) d) ∧
       (∀ t i d, t < steps → i < bs → d < labels.cols →
         ys.entry t i d = labels.entry (drawnOffset samples steps g i + t) d) ∧
       (∀ t i d, ¬(t < steps ∧ i < bs ∧ d < samples.cols) → xs.entry t i d = 0) ∧
       (∀ t i d, ¬(t < steps ∧ i < bs ∧ d < labels.cols) → ys.entry t i d = 0)) := by
  have hfit : ∀ m, m < bs → drawnOffset samples steps g m + steps ≤ labels.rows := by
    intro m _
    have := drawn_lt samples steps hs g m
    omega
  constructor
  · rw [batches_none_eq]
    refine ⟨_, _, unlabeled_sample_eq samples steps bs g hs, rfl, rfl, ?_, ?_⟩
    · intro t i d ht hi hd
      show (if i < bs ∧ t < steps ∧ d < samples.cols then _ else _) = _
      rw [if_pos ⟨hi, ht, hd⟩]
    · intro t i d hn
      show (if i < bs ∧ t < steps ∧ d < samples.cols then _ else _) = _
      rw [if_neg (by intro hc; exact hn ⟨hc.2.1, hc.1, hc.2.2⟩)]
  · rw [batches_some_eq]
    refine ⟨_, _, _, labeled_sample_eq samples labels steps bs g hs hfit,
      rfl, rfl, ?_, ?_, ?_, ?_⟩
    · intro t i d ht hi hd
      show (if i < bs ∧ t < steps ∧ d < samples.cols then _ else _) = _
      rw [if_pos ⟨hi, ht, hd⟩]
    · intro t i d ht hi hd
      show (if i < bs ∧ t < steps ∧ d < labels.cols then _ else _) = _
      rw [if_pos ⟨hi, ht, hd⟩]
    · intro t i d hn
      show (if i < bs ∧ t < steps ∧ d < samples.cols then _ else _) = _
      rw [if_neg (by intro hc; exact hn ⟨hc.2.1, hc.1, hc.2.2⟩)]
    · intro t i d hn
      show (if i < bs ∧ t < steps ∧ d < labels.cols then _ else _) = _
      rw [if_neg (by intro hc; exact hn ⟨hc.2.1, hc.1, hc.2.2⟩)]

theorem batches_pure_frame_witness :
    5 < sampleData.rows ∧ labelData.rows = sampleData.rows ∧
    ((∃ xs g2, batches sampleData none 5 2 gId = some ([xs], g2) ∧
        g2.stream = gId.stream ∧ g2.pos = gId.pos + 2 ∧
        (∀ t i d, t < 5 → i < 2 → d < sampleData.cols →
          xs.entry t i d = sampleData.entry (drawnOffset sampleData 5 gId i + t) d) ∧
        (∀ t i d, ¬(t < 5 ∧ i < 2 ∧ d < sampleData.cols) → xs.entry t i d = 0)) ∧
     (∃ xs ys g2, batches sampleData (some labelData) 5 2 gId = some ([xs, ys], g2) ∧
        g2.stream = gId.stream ∧ g2.pos = gId.pos + 2 ∧
        (∀ t i d, t < 5 → i < 2 → d < sampleData.cols →
          xs.entry t i d = sampleData.entry (drawnOffset sampleData 5 gId i + t) d) ∧
        (∀ t i d, t < 5 → i < 2 → d < labelData.cols →
          ys.entry t i d = labelData.entry (drawnOffset sampleData 5 gId i + t) d) ∧
        (∀ t i d, ¬(t < 5 ∧ i < 2 ∧ d < sampleData.cols) → xs.entry t i d = 0) ∧
        (∀ t i d, ¬(t < 5 ∧ i < 2 ∧ d < labelData.cols) → ys.entry t i d = 0))) :=
  ⟨by decide, by decide,
    batches_pure_frame sampleData labelData 5 2 gId (by decide) (by decide)⟩

/-- A second rng state that agrees with `gId` on the two raw draws a
`batch_size = 2` call consumes, while differing elsewhere. -/
def gShift : RngState := ⟨fun n => n - 3, 3⟩

/-- C8: either sampler returned by `batches` is a deterministic function
of its inputs and the rng state: two runs whose states agree on the raw
draws actually consumed (in particular, two runs from the identical seed
state) draw identical offsets and produce identical batch arrays, for the
unlabeled and the labeled generator alike. -/
theorem batches_deterministic (samples labels : Arr2) (steps bs : ℕ) (g1 g2 : RngState)
    (hs : steps < samples.rows) (hl : labels.rows = samples.rows)
    (hg : ∀ i, i < bs → g1.stream (g1.pos + i) = g2.stream (g2.pos + i)) :
    (∀ i, i < bs → drawnOffset samples steps g1 i = drawnOffset samples steps g2 i) ∧
    (∃ xs gA gB, batches samples none steps bs g1 = some ([xs], gA) ∧
       batches samples none steps bs g2 = some ([xs], gB)) ∧
    (∃ xs ys gA gB, batches samples (some labels) steps bs g1 = some ([xs, ys], gA) ∧
       batches samples (some labels) steps bs g2 = some ([xs, ys], gB)) := by
  have hoff : ∀ i, i < bs →
      drawnOffset samples steps g1 i = drawnOffset samples steps g2 i := by
    intro i hi
    unfold drawnOffset
    rw [hg i hi]
  have harr : ∀ src : Arr2, buildArr src (drawnOffset samples steps g1) steps bs =
      buildArr src (drawnOffset samples steps g2) steps bs := by
    intro src
    refine arr3_eq rfl rfl rfl fun t i d => ?_
    simp only [buildArr]
    by_cases h : i < bs ∧ t < steps ∧ d < src.cols
    · rw [if_pos h, if_pos h, hoff i h.1]
    · rw [if_neg h, if_neg h]
  have hfit : ∀ gx : RngState, ∀ m, m < bs →
      drawnOffset samples steps gx m + steps ≤ labels.rows := by
    intro gx m _
    have := drawn_lt samples steps hs gx m
    omega
  refine ⟨hoff, ?_, ?_⟩
  · refine ⟨buildArr samples (drawnOffset samples steps g1) steps bs,
      ⟨g1.stream, g1.pos + bs⟩, ⟨g2.stream, g2.pos + bs⟩, ?_, ?_⟩
    · rw [batches_none_eq]
      exact unlabeled_sample_eq samples steps bs g1 hs
    · rw [batches_none_eq, unlabeled_sample_eq samples steps bs g2 hs, harr samples]
  · refine ⟨buildArr samples (drawnOffset samples steps g1) steps bs,
      buildArr labels (drawnOffset samples steps g1) steps bs,
      ⟨g1.stream, g1.pos + bs⟩, ⟨g2.stream, g2.pos + bs⟩, ?_, ?_⟩
    · rw [batches_some_eq]
      exact labeled_sample_eq samples labels steps bs g1 hs (hfit g1)
    · rw [batches_some_eq, labeled_sample_eq samples labels steps bs g2 hs (hfit g2),
        harr samples, harr labels]

theorem batches_deterministic_witness :
    (∀ i, i < 2 → drawnOffset sampleData 5 gId i = drawnOffset sampleData 5 gShift i) ∧
    (∃ xs gA gB, batches sampleData none 5 2 gId = some ([xs], gA) ∧
       batches sampleData none 5 2 gShift = some ([xs], gB)) ∧
    (∃ xs ys gA gB, batches sampleData (some labelData) 5 2 gId = some ([xs, ys], gA) ∧
       batches sampleData (some labelData) 5 2 gShift = some ([xs, ys], gB)) :=
  batches_deterministic sampleData labelData 5 2 gId gShift (by decide) (by decide)
    (by decide)

/-- C9: with aligned labels and the same starting rng state, the labeled
generator produces exactly the same data array (and the same final rng
state) as the unlabeled generator; supplying labels only adds the second
output array. -/
theorem batches_labels_preserve_data (samples labels : Arr2) (steps bs : ℕ)
    (g : RngState) (hs : steps < samples.rows) (hl : labels.rows = samples.rows) :
    ∃ xs ys g2, batches samples none steps bs g = some ([xs], g2) ∧
      batches samples (some labels) steps bs g = some ([xs, ys], g2) := by
  have hfit : ∀ m, m < bs → drawnOffset samples steps g m + steps ≤ labels.rows := by
    intro m _
    have := drawn_lt samples steps hs g m
    omega
  refine ⟨buildArr samples (drawnOffset samples steps g) steps bs,
    buildArr labels (drawnOffset samples steps g) steps bs,
    ⟨g.stream, g.pos + bs⟩, ?_, ?_⟩
  · rw [batches_none_eq]
    exact unlabeled_sample_eq samples steps bs g hs
  · rw [batches_some_eq]
    exact labeled_sample_eq samples labels steps bs g hs hfit

theorem batches_labels_preserve_data_witness :
    5 < sampleData.rows ∧ labelData.rows = sampleData.rows ∧
    (∃ xs ys g2, batches sampleData none 5 2 gId = some ([xs], g2) ∧
       batches sampleData (some labelData) 5 2 gId = some ([xs, ys], g2)) :=
  ⟨by decide, by decide,
    batches_labels_preserve_data sampleData labelData 5 2 gId (by decide) (by decide)⟩

/-- C10: the unweighted `Predictor.error` with the default
`generate_prediction` (the identity) equals the mean over all entries of
the squared difference between the input shifted forward one time step and
the output truncated by one time step; and neither the first input frame
nor the last output frame contributes: changing the input at time 0 and
the output at any time past `d0 - 2` leaves the error unchanged. -/
theorem predictor_error_formula (w x y x2 y2 : Arr3)
    (h0 : x2.d0 = x.d0) (h1 : x2.d1 = x.d1) (h2 : x2.d2 = x.d2)
    (hx : ∀ t i d, 1 ≤ t → x2.entry t i d = x.entry t i d)
    (hy : ∀ t i d, t < x.d0 - 1 → y2.entry t i d = y.entry t i d) :
    Predictor_error false w x y = specPredictorError x y ∧
    Predictor_error false w x2 y2 = Predictor_error false w x y := by
  have key : ∀ a b : Arr3, Predictor_error false w a b =
      (∑ t ∈ Finset.range (a.d0 - 1), ∑ i ∈ Finset.range a.d1,
          ∑ d ∈ Finset.range a.d2,
          (a.entry (t + 1) i d - b.entry t i d) * (a.entry (t + 1) i d - b.entry t i d)) /
        (((a.d0 - 1 : ℕ) : ℚ) * (a.d1 : ℚ) * (a.d2 : ℚ)) := by
    intro a b
    simp only [Predictor_error, mean3, sum3, mul3, sub3, tailSlice, dropLastSlice,
      generate_prediction]
    rw [if_neg Bool.false_ne_true]
  constructor
  · rw [key x y, specPredictorError]
    congr 1
    refine Finset.sum_congr rfl fun t _ => ?_
    refine Finset.sum_congr rfl fun i _ => ?_
    refine Finset.sum_congr rfl fun d _ => ?_
    ring
  · rw [key x2 y2, key x y, h0, h1, h2]
    congr 1
    refine Finset.sum_congr rfl fun t ht => ?_
    refine Finset.sum_congr rfl fun i _ => ?_
    refine Finset.sum_congr rfl fun d _ => ?_
    rw [hx (t + 1) i d (by omega), hy t i d (Finset.mem_range.mp ht)]

/-- A concrete network input: 3 time steps, 1 batch slot, 1 variable. -/
def xA : Arr3 := ⟨3, 1, 1, fun t i d => ((5 * t + i + d : ℕ) : ℚ)⟩

/-- A concrete network output of the same shape. -/
def outA : Arr3 := ⟨3, 1, 1, fun t _ _ => ((2 * t : ℕ) : ℚ)⟩

/-- `xA` with its first frame replaced. -/
def xB : Arr3 := ⟨3, 1, 1, fun t i d => if t = 0 then 77 else xA.entry t i d⟩

/-- `outA` with its last frame replaced. -/
def outB : Arr3 := ⟨3, 1, 1, fun t i d => if t < 2 then outA.entry t i d else 55⟩

/-- A concrete weights array (unused on the unweighted path). -/
def wA : Arr3 := ⟨3, 1, 1, fun _ _ _ => 1⟩

theorem predictor_error_formula_witness :
    Predictor_error false wA xA outA = specPredictorError xA outA ∧
    Predictor_error false wA xB outB = Predictor_error false wA xA outA :=
  predictor_error_formula wA xA outA xB outB rfl rfl rfl
    (fun t i d ht => by
      show (if t = 0 then (77 : ℚ) else xA.entry t i d) = xA.entry t i d
      rw [if_neg (by omega)])
    (fun t i d ht => by
      show (if t < 2 then outA.entry t i d else (55 : ℚ)) = outA.entry t i d
      rw [if_pos (show t < 2 from ht)])

end Theanets
